import Mathlib

/-!
Shallow embedding of the smARtABIC Agent retrieval-and-answer pipeline
(`app/server_backup.py`).

Strings are modelled as `List Char` (Python code points), floating-point
similarity scores as `ℚ`.  The sentence-transformer encoder and the FAISS
vector index are external capabilities (spec sections 2 and 4.2): their
output — the list of candidate chunk ids and their similarity scores — is
passed to `retrieve_chunks` as explicit arguments, and the index contract
(at most `search_k` results, every id a valid corpus position, modelled
from the spec) appears as hypotheses of the theorems that need it.
Everything else is translated directly from the Python source.
-/

set_option maxRecDepth 8000

namespace SmartAbic

/-- Python string, as its list of code points. -/
abbrev Str := List Char

/-- ASCII whitespace, the approximation of Python whitespace used uniformly
for the regex class backslash-s, for str.split() and for str.strip(). -/
def isSpaceC (c : Char) : Bool :=
  c == ' ' || c == '\t' || c == '\n' || c == '\r' || c == '\x0b' || c == '\x0c'

/-- Word characters: the regex class backslash-w (ASCII approximation;
Arabic letters are covered separately by the explicit range below). -/
def isWordChar (c : Char) : Bool :=
  c.isAlphanum || c == '_'

/-- The code-point range u0600-u06FF from the regex in `_keywords_ar`. -/
def isArabicRange (c : Char) : Bool :=
  decide (0x600 ≤ c.toNat) && decide (c.toNat ≤ 0x6FF)

/-- Embedding of `re.sub(r"[^ word space arabic ]", " ", text)`: every
character outside the three kept classes becomes a space. -/
def sanitize (s : Str) : Str :=
  s.map fun c => if isWordChar c || isSpaceC c || isArabicRange c then c else ' '

/-- Helper for `splitWs`: accumulates the current token (reversed). -/
def splitWsAux : Str → Str → List Str
  | [], acc => if acc.isEmpty then [] else [acc.reverse]
  | c :: cs, acc =>
    if isSpaceC c then
      if acc.isEmpty then splitWsAux cs [] else acc.reverse :: splitWsAux cs []
    else splitWsAux cs (c :: acc)

/-- Embedding of Python `str.split()` with no argument: split on runs of
whitespace, discarding empty tokens. -/
def splitWs (s : Str) : List Str :=
  splitWsAux s []

/-- Embedding of Python `str.strip()`: remove leading and trailing
whitespace. -/
def trim (s : Str) : Str :=
  (s.dropWhile isSpaceC).rdropWhile isSpaceC

/-- The stop-word set `AR_STOP` from the source (the source lists
"هي" twice; a Python set collapses the duplicate, and list membership
below is likewise unaffected). -/
def AR_STOP : List Str :=
  ["ما".data, "هي".data, "هل".data, "أين".data, "من".data, "في".data,
   "على".data, "إلى".data, "عن".data, "هذا".data, "هذه".data, "ذلك".data,
   "تكون".data, "يكون".data, "كم".data, "متى".data, "لماذا".data,
   "كيف".data, "ماهو".data, "ماهي".data, "هو".data, "؟".data]

/-- Helper for `dedupFirst`: keeps the first occurrence of each element,
carrying the set of elements already seen. -/
def dedupFirstAux (seen : List Str) : List Str → List Str
  | [] => []
  | a :: l =>
    if a ∈ seen then dedupFirstAux seen l
    else a :: dedupFirstAux (a :: seen) l

/-- Embedding of `list(dict.fromkeys(words))`: deduplicate, preserving
first-occurrence order. -/
def dedupFirst (l : List Str) : List Str :=
  dedupFirstAux [] l

/-- Embedding of `_keywords_ar`: sanitize, split on whitespace, keep the
stripped tokens of length at least 3, drop stop words, deduplicate. -/
def _keywords_ar (text : Str) : List Str :=
  let t := sanitize text
  let words := ((splitWs t).map trim).filter fun w => 3 ≤ w.length
  let words2 := words.filter fun w => decide (w ∉ AR_STOP)
  dedupFirst words2

/-- Test `startsWith w s`: `w` is a leading segment of `s`. -/
def startsWith : Str → Str → Bool
  | [], _ => true
  | _ :: _, [] => false
  | a :: w, b :: s => a == b && startsWith w s

/-- Embedding of Python substring containment `w in ch`. -/
def containsSub (w : Str) : Str → Bool
  | [] => w.isEmpty
  | c :: cs => startsWith w (c :: cs) || containsSub w cs

/-- Embedding of `kw_score`: `sum(1 for w in kws if w in ch)`. -/
def kw_score (kws : List Str) (ch : Str) : ℕ :=
  kws.countP fun w => containsSub w ch

/-- The sort key used by the reranker: `(kw_score(chunk), similarity)`. -/
def rankKey (kws : List Str) (x : Str × ℚ) : ℕ × ℚ :=
  (kw_score kws x.1, x.2)

/-- Strict lexicographic order on the reranker's sort keys. -/
def rankLt (kws : List Str) (x y : Str × ℚ) : Prop :=
  kw_score kws x.1 < kw_score kws y.1 ∨
    (kw_score kws x.1 = kw_score kws y.1 ∧ x.2 < y.2)

instance (kws : List Str) (x y : Str × ℚ) : Decidable (rankLt kws x y) := by
  unfold rankLt; infer_instance

/-- Stable descending insertion: the new element `a` (which follows every
element of `l` in the original similarity order) moves past exactly the
elements with strictly greater key, so ties keep their input order.
Together with `sortRanked` this realises Python's stable
`sorted(..., key=..., reverse=True)`. -/
def insDesc (kws : List Str) (a : Str × ℚ) : List (Str × ℚ) → List (Str × ℚ)
  | [] => [a]
  | b :: l => if rankLt kws a b then b :: insDesc kws a l else a :: b :: l

/-- Stable descending sort by `(kw_score, similarity)`. -/
def sortRanked (kws : List Str) : List (Str × ℚ) → List (Str × ℚ)
  | [] => []
  | a :: l => insDesc kws a (sortRanked kws l)

/-- Constant `TOP_K = 5` from the source. -/
def TOP_K : ℕ := 5

/-- Constant `SEARCH_K = 80` from the source. -/
def SEARCH_K : ℕ := 80

/-- Constant `DONT_KNOW_THRESHOLD = 0.72` from the source. -/
def DONT_KNOW_THRESHOLD : ℚ := 0.72

/-- The splitter list from `build_answer`:
Arabic full stop, period, exclamation mark, Arabic question mark, newline. -/
def SPLITTERS : List Char := ['۔', '.', '!', '؟', '\n']

/-- The fixed refusal message returned below the confidence threshold. -/
def DONT_KNOW_MSG : Str :=
  ("لا أعلم، ليس لدي معلومات كافية عن هذا السؤال حاليًا، لكنني في مرحلة التطوير.").data

/-- Embedding of `retrieve_chunks`.  The encoder and the FAISS search are
external (spec section 4.2); their output arrives as `idxs` (chunk ids)
and `sims` (similarity scores).  The body mirrors the source: look the
candidates up in the corpus, rerank by `(kw_score, similarity)` with a
stable descending sort, truncate to `top_k`. -/
def retrieve_chunks (corpus : List Str) (question : Str) (top_k : ℕ)
    (idxs : List ℕ) (sims : List ℚ) : List Str × List ℚ :=
  let candidates := idxs.map fun i => corpus.getD i []
  let kws := _keywords_ar question
  let ranked := sortRanked kws (candidates.zip sims)
  let best := ranked.take top_k
  (best.map Prod.fst, best.map Prod.snd)

/-- The for-loop over `splitters` in `build_answer`: the first splitter
contained anywhere in `ans` wins; split at its first occurrence, keep the
stripped part before it, and break. -/
def splitLoop : List Char → Str → Str
  | [], ans => ans
  | s :: rest, ans =>
    if ans.contains s then trim (ans.takeWhile fun c => !(c == s))
    else splitLoop rest ans

/-- Embedding of `build_answer`.  Returns `none` exactly where the Python
code would raise an IndexError on `retrieved[0]` (confidence gate passed
but no retrieved chunk). -/
def build_answer (_question : Str) (retrieved : List Str) (scores : List ℚ) :
    Option (Str × ℚ) :=
  let best_score := scores.headD 0
  if best_score < DONT_KNOW_THRESHOLD then
    some (DONT_KNOW_MSG, best_score)
  else
    match retrieved with
    | [] => none
    | r :: _ =>
      let text := trim r
      let ans := splitLoop SPLITTERS text
      let ans2 := if ans.length < 18 then trim (text.take 220) else ans
      some (ans2, best_score)

/-- The JSON payload produced by the `/ask` route. -/
structure AskResponse where
  question : Str
  answer : Str
  best_score : ℚ
  chunks : List Str
  scores : List ℚ
deriving DecidableEq

/-- Embedding of the `/ask` route: strip the question, retrieve, build the
answer, assemble the response. -/
def ask (corpus : List Str) (question : Str) (idxs : List ℕ) (sims : List ℚ) :
    Option AskResponse :=
  let q := trim question
  let rs := retrieve_chunks corpus q TOP_K idxs sims
  (build_answer q rs.1 rs.2).map fun p =>
    { question := q, answer := p.1, best_score := p.2,
      chunks := rs.1, scores := rs.2 }

/-- The KeywordScorer steps exactly as the spec words them (section 4.3):
replace every character that is not a word character or in the Arabic
range with a space, split on whitespace, keep tokens of length at least 3,
drop stop words, deduplicate keeping first occurrences.  Used only to be
compared against `_keywords_ar`. -/
def keywordsSpec (text : Str) : List Str :=
  let t := text.map fun c => if isWordChar c || isArabicRange c then c else ' '
  let ws := (splitWs t).filter fun w => 3 ≤ w.length
  let ws2 := ws.filter fun w => decide (w ∉ AR_STOP)
  dedupFirst ws2

/-! ### Properties of the stable descending sort -/

theorem perm_insDesc (kws : List Str) (a : Str × ℚ) (l : List (Str × ℚ)) :
    (insDesc kws a l).Perm (a :: l) := by
  induction l with
  | nil => simp [insDesc]
  | cons b t ih =>
    unfold insDesc
    by_cases h : rankLt kws a b
    · rw [if_pos h]
      exact (ih.cons b).trans (List.Perm.swap a b t)
    · rw [if_neg h]

theorem mem_insDesc {kws : List Str} {a x : Str × ℚ} {l : List (Str × ℚ)}
    (h : x ∈ insDesc kws a l) : x = a ∨ x ∈ l := by
  have := (perm_insDesc kws a l).mem_iff.mp h
  simpa using this

theorem rankLt_asymm {kws : List Str} {x y : Str × ℚ}
    (h : rankLt kws x y) : ¬ rankLt kws y x := by
  unfold rankLt at h ⊢
  rcases h with h | ⟨he, hs⟩ <;> rintro (h' | ⟨he', hs'⟩)
  · omega
  · omega
  · omega
  · exact lt_asymm hs hs'

theorem rankLt_neg_trans {kws : List Str} {x y z : Str × ℚ}
    (hxy : ¬ rankLt kws x y) (hyz : ¬ rankLt kws y z) : ¬ rankLt kws x z := by
  unfold rankLt at hxy hyz ⊢
  push_neg at hxy hyz ⊢
  obtain ⟨h1, h2⟩ := hxy
  obtain ⟨h3, h4⟩ := hyz
  refine ⟨by omega, fun he => ?_⟩
  have e1 : kw_score kws x.1 = kw_score kws y.1 := by omega
  have e2 : kw_score kws y.1 = kw_score kws z.1 := by omega
  calc z.2 ≤ y.2 := h4 e2
    _ ≤ x.2 := h2 e1

theorem pairwise_insDesc {kws : List Str} (a : Str × ℚ) {l : List (Str × ℚ)}
    (hl : l.Pairwise fun x y => ¬ rankLt kws x y) :
    (insDesc kws a l).Pairwise fun x y => ¬ rankLt kws x y := by
  induction l with
  | nil => simp [insDesc]
  | cons b t ih =>
    rw [List.pairwise_cons] at hl
    unfold insDesc
    by_cases h : rankLt kws a b
    · rw [if_pos h, List.pairwise_cons]
      refine ⟨fun z hz => ?_, ih hl.2⟩
      rcases mem_insDesc hz with rfl | hz'
      · exact rankLt_asymm h
      · exact hl.1 z hz'
    · rw [if_neg h, List.pairwise_cons]
      refine ⟨fun z hz => ?_, ?_⟩
      · rcases List.mem_cons.mp hz with rfl | hz'
        · exact h
        · exact rankLt_neg_trans h (hl.1 z hz')
      · rw [List.pairwise_cons]
        exact hl

theorem perm_sortRanked (kws : List Str) (l : List (Str × ℚ)) :
    (sortRanked kws l).Perm l := by
  induction l with
  | nil => simp [sortRanked]
  | cons a t ih => exact (perm_insDesc kws a (sortRanked kws t)).trans (ih.cons a)

theorem pairwise_sortRanked (kws : List Str) (l : List (Str × ℚ)) :
    (sortRanked kws l).Pairwise fun x y => ¬ rankLt kws x y := by
  induction l with
  | nil => simp [sortRanked]
  | cons a t ih => exact pairwise_insDesc a ih

theorem rankKey_ne_of_rankLt {kws : List Str} {x y : Str × ℚ}
    (h : rankLt kws x y) : rankKey kws x ≠ rankKey kws y := by
  intro he
  simp only [rankKey, Prod.mk.injEq] at he
  rcases h with h | ⟨_, hs⟩
  · omega
  · rw [he.2] at hs
    exact lt_irrefl _ hs

theorem filter_insDesc_of_ne {kws : List Str} {a : Str × ℚ} {k : ℕ × ℚ}
    (hk : rankKey kws a ≠ k) (l : List (Str × ℚ)) :
    (insDesc kws a l).filter (fun x => decide (rankKey kws x = k))
      = l.filter fun x => decide (rankKey kws x = k) := by
  induction l with
  | nil => simp [insDesc, hk]
  | cons b t ih =>
    unfold insDesc
    by_cases h : rankLt kws a b
    · rw [if_pos h]
      simp only [List.filter_cons, ih]
    · rw [if_neg h]
      simp [List.filter_cons, hk]

theorem filter_insDesc_of_eq {kws : List Str} {a : Str × ℚ} {k : ℕ × ℚ}
    (hk : rankKey kws a = k) (l : List (Str × ℚ)) :
    (insDesc kws a l).filter (fun x => decide (rankKey kws x = k))
      = a :: l.filter fun x => decide (rankKey kws x = k) := by
  induction l with
  | nil => simp [insDesc, hk]
  | cons b t ih =>
    unfold insDesc
    by_cases h : rankLt kws a b
    · have hb : rankKey kws b ≠ k := by
        intro hbk
        exact rankKey_ne_of_rankLt h (hk.trans hbk.symm)
      rw [if_pos h]
      simp [List.filter_cons, hb, ih]
    · rw [if_neg h]
      simp [List.filter_cons, hk]

theorem sortRanked_stable (kws : List Str) (l : List (Str × ℚ)) (k : ℕ × ℚ) :
    (sortRanked kws l).filter (fun x => decide (rankKey kws x = k))
      = l.filter fun x => decide (rankKey kws x = k) := by
  induction l with
  | nil => simp [sortRanked]
  | cons a t ih =>
    show (insDesc kws a (sortRanked kws t)).filter _ = _
    by_cases hk : rankKey kws a = k
    · rw [filter_insDesc_of_eq hk, ih]
      simp [List.filter_cons, hk]
    · rw [filter_insDesc_of_ne hk, ih]
      simp [List.filter_cons, hk]

/-! ### Properties of keyword extraction -/

theorem mem_dedupFirstAux {seen l : List Str} {x : Str}
    (h : x ∈ dedupFirstAux seen l) : x ∉ seen := by
  induction l generalizing seen with
  | nil => simp [dedupFirstAux] at h
  | cons a t ih =>
    unfold dedupFirstAux at h
    by_cases ha : a ∈ seen
    · rw [if_pos ha] at h
      exact ih h
    · rw [if_neg ha] at h
      rcases List.mem_cons.mp h with rfl | h'
      · exact ha
      · exact fun hx => ih h' (List.mem_cons_of_mem a hx)

theorem nodup_dedupFirstAux (seen l : List Str) :
    (dedupFirstAux seen l).Nodup := by
  induction l generalizing seen with
  | nil => simp [dedupFirstAux]
  | cons a t ih =>
    unfold dedupFirstAux
    by_cases ha : a ∈ seen
    · rw [if_pos ha]
      exact ih seen
    · rw [if_neg ha]
      exact List.nodup_cons.mpr
        ⟨fun hmem => (mem_dedupFirstAux hmem) (List.mem_cons_self a seen),
         ih (a :: seen)⟩

theorem nodup_keywords (q : Str) : (_keywords_ar q).Nodup :=
  nodup_dedupFirstAux [] _

theorem isSpaceC_cases {c : Char} (h : isSpaceC c = true) :
    c = ' ' ∨ c = '\t' ∨ c = '\n' ∨ c = '\r' ∨ c = '\x0b' ∨ c = '\x0c' := by
  simp only [isSpaceC, Bool.or_eq_true, beq_iff_eq] at h
  tauto

theorem not_word_of_space {c : Char} (h : isSpaceC c = true) :
    isWordChar c = false ∧ isArabicRange c = false := by
  rcases isSpaceC_cases h with rfl | rfl | rfl | rfl | rfl | rfl <;>
    exact ⟨by decide, by decide⟩

theorem isSpaceC_space : isSpaceC ' ' = true := by decide

theorem splitWsAux_sanitize (s : Str) :
    ∀ acc, splitWsAux (sanitize s) acc
      = splitWsAux (s.map fun c => if isWordChar c || isArabicRange c then c else ' ') acc := by
  induction s with
  | nil => intro acc; rfl
  | cons c t ih =>
    intro acc
    simp only [sanitize, List.map_cons]
    by_cases hs : isSpaceC c = true
    · obtain ⟨hw, ha⟩ := not_word_of_space hs
      have e1 : (if isWordChar c || isSpaceC c || isArabicRange c then c else ' ') = c := by
        rw [hw, hs, ha]
        simp
      have e2 : (if isWordChar c || isArabicRange c then c else ' ') = ' ' := by
        rw [hw, ha]
        simp
      rw [e1, e2]
      simp only [splitWsAux, hs, isSpaceC_space, if_true]
      cases hacc : acc.isEmpty
      · simp only [Bool.false_eq_true, if_false]
        exact congrArg (fun l => acc.reverse :: l) (ih [])
      · simp only [if_true]
        exact ih []
    · have hs' : isSpaceC c = false := by
        cases hv : isSpaceC c
        · rfl
        · exact absurd hv hs
      by_cases hc : (isWordChar c || isArabicRange c) = true
      · have hc' : (isWordChar c || isSpaceC c || isArabicRange c) = true := by
          rw [hs']
          simp only [Bool.or_eq_true] at hc ⊢
          tauto
        have e1 : (if isWordChar c || isSpaceC c || isArabicRange c then c else ' ') = c :=
          if_pos hc'
        have e2 : (if isWordChar c || isArabicRange c then c else ' ') = c := if_pos hc
        rw [e1, e2]
        simp only [splitWsAux, hs', Bool.false_eq_true, if_false]
        exact ih (c :: acc)
      · have hcf : (isWordChar c || isArabicRange c) = false := by
          cases hv : (isWordChar c || isArabicRange c)
          · rfl
          · exact absurd hv hc
        have hw : isWordChar c = false := by
          cases hv : isWordChar c
          · rfl
          · rw [hv] at hcf
            simp at hcf
        have ha : isArabicRange c = false := by
          cases hv : isArabicRange c
          · rfl
          · rw [hv] at hcf
            simp at hcf
        have e1 : (if isWordChar c || isSpaceC c || isArabicRange c then c else ' ') = ' ' := by
          rw [hw, hs', ha]
          simp
        have e2 : (if isWordChar c || isArabicRange c then c else ' ') = ' ' := if_neg (by
          rw [hcf]
          simp)
        rw [e1, e2]
        simp only [splitWsAux, isSpaceC_space, if_true]
        cases hacc : acc.isEmpty
        · simp only [Bool.false_eq_true, if_false]
          exact congrArg (fun l => acc.reverse :: l) (ih [])
        · simp only [if_true]
          exact ih []

theorem no_space_splitWsAux {s : Str} :
    ∀ {acc : Str}, (∀ ch ∈ acc, isSpaceC ch = false) →
      ∀ tok ∈ splitWsAux s acc, ∀ ch ∈ tok, isSpaceC ch = false := by
  induction s with
  | nil =>
    intro acc hacc tok htok
    unfold splitWsAux at htok
    by_cases h : acc.isEmpty
    · simp [h] at htok
    · rw [if_neg h] at htok
      rcases List.mem_singleton.mp htok with rfl
      intro ch hch
      exact hacc ch (List.mem_reverse.mp hch)
  | cons c t ih =>
    intro acc hacc tok htok
    unfold splitWsAux at htok
    by_cases hs : isSpaceC c = true
    · rw [if_pos hs] at htok
      by_cases h : acc.isEmpty
      · rw [if_pos h] at htok
        exact ih (by simp) tok htok
      · rw [if_neg h] at htok
        rcases List.mem_cons.mp htok with rfl | htok'
        · intro ch hch
          exact hacc ch (List.mem_reverse.mp hch)
        · exact ih (by simp) tok htok'
    · rw [if_neg hs] at htok
      refine ih ?_ tok htok
      intro ch hch
      rcases List.mem_cons.mp hch with rfl | hch'
      · cases hv : isSpaceC ch
        · rfl
        · exact absurd hv hs
      · exact hacc ch hch'

theorem trim_eq_self {s : Str} (h : ∀ ch ∈ s, isSpaceC ch = false) : trim s = s := by
  unfold trim
  have h1 : s.dropWhile isSpaceC = s := by
    cases s with
    | nil => rfl
    | cons a t =>
      rw [List.dropWhile_cons, h a (List.mem_cons_self a t)]
      simp
  rw [h1, List.rdropWhile]
  have h2 : s.reverse.dropWhile isSpaceC = s.reverse := by
    cases hr : s.reverse with
    | nil => rfl
    | cons a t =>
      have ha : a ∈ s := by
        rw [← List.mem_reverse, hr]
        exact List.mem_cons_self a t
      rw [List.dropWhile_cons, h a ha]
      simp
  rw [h2, List.reverse_reverse]

theorem map_trim_splitWs (t : Str) : (splitWs t).map trim = splitWs t := by
  have h := @no_space_splitWsAux t [] (by simp)
  calc (splitWs t).map trim
      = (splitWs t).map id :=
        List.map_congr_left fun tok htok => trim_eq_self (h tok htok)
    _ = splitWs t := List.map_id _

theorem keywords_eq_spec (q : Str) : _keywords_ar q = keywordsSpec q := by
  simp only [_keywords_ar, keywordsSpec]
  rw [show splitWs (sanitize q)
        = splitWs (q.map fun c => if isWordChar c || isArabicRange c then c else ' ') from
      splitWsAux_sanitize q []]
  rw [map_trim_splitWs]

/-! ### Substring containment -/

theorem startsWith_iff (w : Str) : ∀ s : Str, startsWith w s = true ↔ w <+: s := by
  induction w with
  | nil =>
    intro s
    simp [startsWith, List.nil_prefix]
  | cons a w ih =>
    intro s
    cases s with
    | nil =>
      simp [startsWith]
    | cons b s =>
      simp [startsWith, Bool.and_eq_true, beq_iff_eq, ih, List.cons_prefix_cons]

theorem containsSub_iff (w : Str) : ∀ s : Str, containsSub w s = true ↔ w <:+: s := by
  intro s
  induction s with
  | nil =>
    simp [containsSub, List.isEmpty_iff]
  | cons c cs ih =>
    rw [containsSub, Bool.or_eq_true, startsWith_iff, ih, List.infix_cons_iff]

/-! ### Properties of answer extraction -/

theorem splitLoop_eq_find (splitters : List Char) (text : Str) :
    splitLoop splitters text
      = match splitters.find? (fun d => text.contains d) with
        | some d => trim (text.takeWhile fun c => !(c == d))
        | none => text := by
  induction splitters with
  | nil => rfl
  | cons s rest ih =>
    rw [splitLoop]
    by_cases h : text.contains s = true
    · rw [if_pos h, List.find?_cons_of_pos _ h]
    · rw [if_neg h, List.find?_cons_of_neg _ h, ih]

theorem trim_infix (s : Str) : trim s <:+: s := by
  have h1 : trim s <+: s.dropWhile isSpaceC := List.rdropWhile_prefix _ _
  have h2 : s.dropWhile isSpaceC <:+ s := List.dropWhile_suffix _
  exact List.IsInfix.trans ( List.IsPrefix.isInfix h1) ( List.IsSuffix.isInfix h2)

theorem splitLoop_infix (splitters : List Char) (t : Str) :
    splitLoop splitters t <:+: t := by
  induction splitters with
  | nil => exact List.infix_refl _
  | cons s rest ih =>
    rw [splitLoop]
    by_cases h : t.contains s = true
    · rw [if_pos h]
      exact List.IsInfix.trans ( trim_infix _)
        ( List.IsPrefix.isInfix ( List.takeWhile_prefix _))
    · rw [if_neg h]
      exact ih

theorem build_answer_refusal (q : Str) (retrieved : List Str) (scores : List ℚ)
    (h : scores.headD 0 < DONT_KNOW_THRESHOLD) :
    build_answer q retrieved scores = some (DONT_KNOW_MSG, scores.headD 0) := by
  simp only [build_answer]
  rw [if_pos h]

theorem build_answer_extract (q r : Str) (rest : List Str) (scores : List ℚ)
    (h : ¬ scores.headD 0 < DONT_KNOW_THRESHOLD) :
    build_answer q (r :: rest) scores
      = some ((if (splitLoop SPLITTERS (trim r)).length < 18
               then trim ((trim r).take 220) else splitLoop SPLITTERS (trim r)),
              scores.headD 0) := by
  simp only [build_answer]
  rw [if_neg h]

theorem build_answer_isSome (q : Str) (retrieved : List Str) (scores : List ℚ)
    (h : retrieved.length = scores.length) :
    (build_answer q retrieved scores).isSome = true := by
  by_cases hg : scores.headD 0 < DONT_KNOW_THRESHOLD
  · rw [build_answer_refusal q retrieved scores hg]
    rfl
  · cases retrieved with
    | cons r rest =>
      rw [build_answer_extract q r rest scores hg]
      rfl
    | nil =>
      have hs : scores = [] := List.length_eq_zero.mp h.symm
      rw [hs] at hg
      refine absurd ?_ hg
      show (0 : ℚ) < DONT_KNOW_THRESHOLD
      norm_num [DONT_KNOW_THRESHOLD]

theorem build_answer_snd (q : Str) (retrieved : List Str) (scores : List ℚ)
    (p : Str × ℚ) (hp : build_answer q retrieved scores = some p) :
    p.2 = scores.headD 0 := by
  by_cases hg : scores.headD 0 < DONT_KNOW_THRESHOLD
  · rw [build_answer_refusal q retrieved scores hg] at hp
    rw [← Option.some.inj hp]
  · cases retrieved with
    | nil =>
      rw [show build_answer q [] scores
          = if scores.headD 0 < DONT_KNOW_THRESHOLD
            then some (DONT_KNOW_MSG, scores.headD 0) else none from rfl,
        if_neg hg] at hp
      exact absurd hp (by simp)
    | cons r rest =>
      rw [build_answer_extract q r rest scores hg] at hp
      rw [← Option.some.inj hp]

theorem retrieve_chunks_lengths (corpus : List Str) (question : Str)
    (top_k : ℕ) (idxs : List ℕ) (sims : List ℚ) :
    (retrieve_chunks corpus question top_k idxs sims).1.length
      = (retrieve_chunks corpus question top_k idxs sims).2.length := by
  simp [retrieve_chunks]

theorem ask_isSome (corpus : List Str) (question : Str) (idxs : List ℕ)
    (sims : List ℚ) : (ask corpus question idxs sims).isSome = true := by
  simp only [ask]
  have h := build_answer_isSome (trim question)
    (retrieve_chunks corpus (trim question) TOP_K idxs sims).1
    (retrieve_chunks corpus (trim question) TOP_K idxs sims).2
    (retrieve_chunks_lengths corpus (trim question) TOP_K idxs sims)
  cases hb : build_answer (trim question)
      (retrieve_chunks corpus (trim question) TOP_K idxs sims).1
      (retrieve_chunks corpus (trim question) TOP_K idxs sims).2 with
  | none =>
    rw [hb] at h
    exact absurd h (by simp)
  | some p => rfl

/-! ### The claims -/

/-- C1: under the index contract (search returns exactly
min(search_k, corpus_size) results, every id a valid corpus position), the
response's `chunks` and `scores` have equal length, that length is
min(top_k, search_k, corpus_size), and every returned chunk is a genuine
corpus entry. -/
theorem claim_C1_result_size (corpus : List Str) (question : Str)
    (idxs : List ℕ) (sims : List ℚ)
    (h1 : idxs.length = min SEARCH_K corpus.length)
    (h2 : sims.length = idxs.length)
    (h3 : ∀ i ∈ idxs, i < corpus.length)
    (resp : AskResponse) (h : ask corpus question idxs sims = some resp) :
    resp.chunks.length = resp.scores.length ∧
    resp.chunks.length = min TOP_K (min SEARCH_K corpus.length) ∧
    ∀ c ∈ resp.chunks, c ∈ corpus := by
  simp only [ask] at h
  obtain ⟨p, hp, hresp⟩ := Option.map_eq_some'.mp h
  rw [← hresp]
  have hlen : (sortRanked (_keywords_ar (trim question))
      ((idxs.map fun i => corpus.getD i []).zip sims)).length
      = min SEARCH_K corpus.length := by
    rw [(perm_sortRanked _ _).length_eq, List.length_zip, List.length_map, h2,
      min_self, h1]
  refine ⟨retrieve_chunks_lengths corpus (trim question) TOP_K idxs sims, ?_, ?_⟩
  · show (((sortRanked (_keywords_ar (trim question))
        ((idxs.map fun i => corpus.getD i []).zip sims)).take TOP_K).map
          Prod.fst).length = _
    rw [List.length_map, List.length_take, hlen]
  · intro c hc
    have hc' : c ∈ ((sortRanked (_keywords_ar (trim question))
        ((idxs.map fun i => corpus.getD i []).zip sims)).take TOP_K).map
          Prod.fst := hc
    obtain ⟨x, hx, hxc⟩ := List.mem_map.mp hc'
    obtain ⟨a, b⟩ := x
    have hx1 : (a, b) ∈ sortRanked (_keywords_ar (trim question))
        ((idxs.map fun i => corpus.getD i []).zip sims) :=
      List.take_subset TOP_K _ hx
    have hx2 : (a, b) ∈ (idxs.map fun i => corpus.getD i []).zip sims :=
      (perm_sortRanked _ _).subset hx1
    have hx3 : a ∈ idxs.map fun i => corpus.getD i [] :=
      (List.of_mem_zip hx2).1
    obtain ⟨i, hi, hia⟩ := List.mem_map.mp hx3
    have hil : i < corpus.length := h3 i hi
    rw [← hxc]
    show a ∈ corpus
    rw [← hia, List.getD_eq_getElem _ _ hil]
    exact List.getElem_mem hil

/-- Witness for C1: a one-chunk corpus with a search result of size
min(80, 1) = 1 yields a response with min(5, min(80, 1)) = 1 chunk. -/
theorem claim_C1_witness :
    (AskResponse.mk ("xy".data) DONT_KNOW_MSG ((1 : ℚ)/2)
        ["ab".data] [(1 : ℚ)/2]).chunks.length
      = min TOP_K (min SEARCH_K (["ab".data] : List Str).length) :=
  (claim_C1_result_size ["ab".data] ("xy".data) [0]
    [(1 : ℚ)/2] (by decide) (by decide) (by decide)
    (AskResponse.mk ("xy".data) DONT_KNOW_MSG ((1 : ℚ)/2)
      ["ab".data] [(1 : ℚ)/2])
    (by
      simp only [ask]
      show (build_answer (trim ("xy".data)) ["ab".data] [(1 : ℚ)/2]).map _
        = some _
      rw [build_answer_refusal (trim ("xy".data)) ["ab".data] [(1 : ℚ)/2]
        (by
          show (1 : ℚ)/2 < DONT_KNOW_THRESHOLD
          norm_num [DONT_KNOW_THRESHOLD])]
      rfl)).2.1

/-- C2: if the similarity score of the first reranked entry (or 0.0 when
the list is empty) is strictly below `DONT_KNOW_THRESHOLD`, the answer is
exactly the fixed refusal string, independent of chunk content, paired with
that best score. -/
theorem claim_C2_refusal_below_threshold (q : Str) (retrieved : List Str)
    (scores : List ℚ) (h : scores.headD 0 < DONT_KNOW_THRESHOLD) :
    build_answer q retrieved scores = some (DONT_KNOW_MSG, scores.headD 0) :=
  build_answer_refusal q retrieved scores h

/-- Witness for C2: best score 1/2 < 0.72 returns the refusal message. -/
theorem claim_C2_witness :
    build_answer [] ["abc".data] [(1 : ℚ)/2]
      = some (DONT_KNOW_MSG, (1 : ℚ)/2) :=
  claim_C2_refusal_below_threshold [] ["abc".data] [(1 : ℚ)/2]
    (by
      show (1 : ℚ)/2 < DONT_KNOW_THRESHOLD
      norm_num [DONT_KNOW_THRESHOLD])

/-- C3: the extraction candidate is produced by scanning the fixed delimiter
list in order, splitting at the first occurrence of the first listed
delimiter present anywhere in the text (trimmed prefix kept); when no
delimiter occurs the full text is kept. -/
theorem claim_C3_delimiter_priority (text : Str) :
    splitLoop SPLITTERS text
      = match SPLITTERS.find? (fun d => text.contains d) with
        | some d => trim (text.takeWhile fun c => !(c == d))
        | none => text :=
  splitLoop_eq_find SPLITTERS text

/-- C4 counterexample: a 300-character delimiter-free top chunk makes the
extraction branch return the whole 300-character text, not its first 220
characters — the delimiter-splitting candidate is the full text, so the
under-18 fallback never fires. -/
theorem claim_C4_counterexample :
    SPLITTERS.all (fun d => !((List.replicate 300 'a').contains d)) = true ∧
    build_answer [] [List.replicate 300 'a'] [(9 : ℚ)/10]
      = some (List.replicate 300 'a', (9 : ℚ)/10) ∧
    List.replicate 300 'a' ≠ (List.replicate 300 'a').take 220 := by
  refine ⟨by decide, ?_, by decide⟩
  rw [build_answer_extract [] (List.replicate 300 'a') [] [(9 : ℚ)/10]
    (by
      show ¬ (9 : ℚ)/10 < DONT_KNOW_THRESHOLD
      norm_num [DONT_KNOW_THRESHOLD])]
  rw [if_neg (by decide), show splitLoop SPLITTERS (trim (List.replicate 300 'a'))
      = List.replicate 300 'a' from by decide]
  rfl

/-- C4 (amended): when the delimiter-splitting candidate is shorter than 18
characters, the answer is the first 220 characters of the original trimmed
chunk text, trimmed of surrounding whitespace; a delimiter-free 300-character
chunk instead yields the full text, its candidate being the whole text. -/
theorem claim_C4_short_candidate_fallback (q r : Str) (rest : List Str)
    (scores : List ℚ) (hgate : ¬ scores.headD 0 < DONT_KNOW_THRESHOLD)
    (hshort : (splitLoop SPLITTERS (trim r)).length < 18) :
    build_answer q (r :: rest) scores
      = some (trim ((trim r).take 220), scores.headD 0) := by
  rw [build_answer_extract q r rest scores hgate, if_pos hshort]

/-- Witness for C4 (amended): a chunk whose first sentence has 2 characters
falls back to the 220-character truncation of the whole chunk. -/
theorem claim_C4_witness :
    build_answer [] ["ab.cdefghijklmnopqrst".data] [(3 : ℚ)/4]
      = some ("ab.cdefghijklmnopqrst".data, (3 : ℚ)/4) := by
  have h := claim_C4_short_candidate_fallback [] ("ab.cdefghijklmnopqrst".data)
    [] [(3 : ℚ)/4]
    (by
      show ¬ (3 : ℚ)/4 < DONT_KNOW_THRESHOLD
      norm_num [DONT_KNOW_THRESHOLD])
    (by decide)
  rw [h, show trim ((trim ("ab.cdefghijklmnopqrst".data)).take 220)
      = "ab.cdefghijklmnopqrst".data from by decide]
  rfl

/-- C5: the rerank is a stable descending sort on (keyword score,
similarity): the output is a permutation of the zipped candidate list,
pairwise non-increasing in the lexicographic key order, leaves the sublist
at every key value unchanged (ties keep the similarity-ordered input
order), and `retrieve_chunks` truncates it to the first `top_k` entries. -/
theorem claim_C5_stable_rerank (corpus : List Str) (question : Str)
    (idxs : List ℕ) (sims : List ℚ) :
    ((sortRanked (_keywords_ar question)
        ((idxs.map fun i => corpus.getD i []).zip sims)).Perm
      ((idxs.map fun i => corpus.getD i []).zip sims)) ∧
    ((sortRanked (_keywords_ar question)
        ((idxs.map fun i => corpus.getD i []).zip sims)).Pairwise
      fun x y => ¬ rankLt (_keywords_ar question) x y) ∧
    (∀ k : ℕ × ℚ,
      (sortRanked (_keywords_ar question)
          ((idxs.map fun i => corpus.getD i []).zip sims)).filter
        (fun x => decide (rankKey (_keywords_ar question) x = k))
        = ((idxs.map fun i => corpus.getD i []).zip sims).filter
            fun x => decide (rankKey (_keywords_ar question) x = k)) ∧
    retrieve_chunks corpus question TOP_K idxs sims
      = (((sortRanked (_keywords_ar question)
            ((idxs.map fun i => corpus.getD i []).zip sims)).take TOP_K).map
              Prod.fst,
         ((sortRanked (_keywords_ar question)
            ((idxs.map fun i => corpus.getD i []).zip sims)).take TOP_K).map
              Prod.snd) :=
  ⟨perm_sortRanked _ _, pairwise_sortRanked _ _, sortRanked_stable _ _, rfl⟩

/-- C6: the keyword score of a chunk is the number of distinct extracted
keywords occurring as a literal substring of the chunk, each contributing at
most 1; `containsSub` coincides with list-infix containment. -/
theorem claim_C6_kw_score_distinct (question ch : Str) :
    kw_score (_keywords_ar question) ch
      = ((_keywords_ar question).filter fun w => containsSub w ch).toFinset.card ∧
    ∀ w : Str, containsSub w ch = true ↔ w <:+: ch := by
  constructor
  · rw [kw_score, List.countP_eq_length_filter]
    exact (List.toFinset_card_of_nodup
      ((nodup_keywords question).filter _)).symm
  · exact fun w => containsSub_iff w ch

/-- C7: keyword extraction equals the spec's five-step pipeline
(`keywordsSpec`) and never returns a duplicate token. -/
theorem claim_C7_keywords (q : Str) :
    _keywords_ar q = keywordsSpec q ∧ (_keywords_ar q).Nodup :=
  ⟨keywords_eq_spec q, nodup_keywords q⟩

/-- C8: the response's `best_score` equals the similarity score of the
top-ranked candidate (`scores[0]`) when the reranked list is non-empty, and
0.0 when there are no candidates — `List.headD` captures both cases. -/
theorem claim_C8_best_score (corpus : List Str) (question : Str)
    (idxs : List ℕ) (sims : List ℚ) (resp : AskResponse)
    (h : ask corpus question idxs sims = some resp) :
    resp.best_score = resp.scores.headD 0 := by
  simp only [ask] at h
  obtain ⟨p, hp, hresp⟩ := Option.map_eq_some'.mp h
  rw [← hresp]
  exact build_answer_snd (trim question) _ _ p hp

/-- Witness for C8: an empty corpus gives a refusal with best score 0. -/
theorem claim_C8_witness :
    (AskResponse.mk [] DONT_KNOW_MSG 0 [] []).best_score
      = (AskResponse.mk [] DONT_KNOW_MSG 0 [] []).scores.headD 0 :=
  claim_C8_best_score [] [] [] []
    (AskResponse.mk [] DONT_KNOW_MSG 0 [] [])
    (by
      simp only [ask]
      show (build_answer (trim []) [] []).map _ = some _
      rw [build_answer_refusal (trim []) [] []
        (by
          show (0 : ℚ) < DONT_KNOW_THRESHOLD
          norm_num [DONT_KNOW_THRESHOLD])]
      rfl)

/-- C9: whenever the confidence gate passes, the returned answer is a
contiguous substring of the top-ranked chunk's text — the pipeline never
fabricates text. -/
theorem claim_C9_answer_infix_of_top_chunk (q r : Str) (rest : List Str)
    (scores : List ℚ) (p : Str × ℚ)
    (hgate : DONT_KNOW_THRESHOLD ≤ scores.headD 0)
    (hp : build_answer q (r :: rest) scores = some p) :
    p.1 <:+: r := by
  rw [build_answer_extract q r rest scores (not_lt.mpr hgate)] at hp
  have hA := Option.some.inj hp
  have hfst : p.1 = (if (splitLoop SPLITTERS (trim r)).length < 18
      then trim ((trim r).take 220) else splitLoop SPLITTERS (trim r)) := by
    rw [← hA]
  rw [hfst]
  by_cases hshort : (splitLoop SPLITTERS (trim r)).length < 18
  · rw [if_pos hshort]
    have h1 : trim ((trim r).take 220) <:+: (trim r).take 220 := trim_infix _
    have h2 : (trim r).take 220 <+: trim r := List.take_prefix _ _
    exact (h1.trans ( List.IsPrefix.isInfix h2)).trans ( trim_infix r)
  · rw [if_neg hshort]
    exact ( splitLoop_infix SPLITTERS (trim r)).trans ( trim_infix r)

/-- Witness for C9: the extracted first sentence is a substring of its
chunk. -/
theorem claim_C9_witness :
    ("abcdefghijklmnopqr".data) <:+: ("abcdefghijklmnopqr.xyz".data) :=
  claim_C9_answer_infix_of_top_chunk [] ("abcdefghijklmnopqr.xyz".data) []
    [(4 : ℚ)/5] ("abcdefghijklmnopqr".data, (4 : ℚ)/5)
    (by
      show DONT_KNOW_THRESHOLD ≤ (4 : ℚ)/5
      norm_num [DONT_KNOW_THRESHOLD])
    (by
      rw [build_answer_extract [] ("abcdefghijklmnopqr.xyz".data) [] [(4 : ℚ)/5]
        (by
          show ¬ (4 : ℚ)/5 < DONT_KNOW_THRESHOLD
          norm_num [DONT_KNOW_THRESHOLD])]
      rw [if_neg (by decide), show splitLoop SPLITTERS
          (trim ("abcdefghijklmnopqr.xyz".data))
          = "abcdefghijklmnopqr".data from by decide]
      rfl)

/-- C10: the `retrieved[0]` access in the extraction branch is always in
bounds along the pipeline: `ask` never reaches the missing-chunk case
(retrieved and scores always have equal length), and with no candidates the
best score defaults to 0, which is below the threshold, so the refusal
branch is taken. -/
theorem claim_C10_extraction_in_bounds (corpus : List Str) (question : Str)
    (idxs : List ℕ) (sims : List ℚ) :
    (ask corpus question idxs sims).isSome = true ∧
    ∀ q : Str, build_answer q [] [] = some (DONT_KNOW_MSG, 0) :=
  ⟨ask_isSome corpus question idxs sims,
   fun q => build_answer_refusal q [] []
     (by
       show (0 : ℚ) < DONT_KNOW_THRESHOLD
       norm_num [DONT_KNOW_THRESHOLD])⟩

end SmartAbic
